import Mathlib

/-!
Verification of a reliable-file-transfer-over-UDP implementation
(`part1/p1_server.py`, `part2/p2_server.py`, `part2/p2_client.py`).

The Python code is shallowly embedded: pure helpers become Lean functions,
the stateful send/receive loops become explicit state-passing step functions,
Python `float` time and RTT arithmetic is modelled by exact rationals, and
Python exceptions (`TypeError` from comparing `None` with `int`,
`IndexError`/`struct.error` from out-of-range accesses) are modelled by
`Except Unit` / `Option` results.  Python `set` objects are modelled by
`Finset ℕ`; iteration over `sorted(...)` is modelled by an insertion sort of
the underlying multiset.
-/

namespace RUDP

/-! ## Constants (`p1_server.py` / `p2_server.py` / `p2_client.py` headers) -/

def MAX_PAYLOAD_SIZE : ℕ := 1200

def HEADER_SIZE : ℕ := 20

def DATA_SIZE : ℕ := MAX_PAYLOAD_SIZE - HEADER_SIZE

def SEQ_NUM_SIZE : ℕ := 4

def RESERVED_SIZE : ℕ := 16

/-- The sentinel payload `b"EOF"` as a byte list. -/
def eofMarker : List ℕ := [69, 79, 70]

/-- `2^32`, the exclusive upper bound of `struct.pack("!I", ·)`. -/
def U32 : ℕ := 4294967296

/-! ## Wire codec

`struct.pack("!I", n)` raises `struct.error` for `n ≥ 2^32`; this is modelled
by `packU32` returning `none` there.  `struct.unpack("!I", b)` of the first
four bytes of a sufficiently long buffer is `unpackU32`. -/

def packU32 (n : ℕ) : Option (List ℕ) :=
  if n < U32 then some [n / 16777216 % 256, n / 65536 % 256, n / 256 % 256, n % 256]
  else none

def unpackU32 : List ℕ → ℕ
  | b0 :: b1 :: b2 :: b3 :: _ => ((b0 * 256 + b1) * 256 + b2) * 256 + b3
  | _ => 0

/-- Pack a list of 32-bit fields, failing if any is out of range. -/
def packList : List ℕ → Option (List ℕ)
  | [] => some []
  | n :: rest =>
    match packU32 n, packList rest with
    | some b, some r => some (b ++ r)
    | _, _ => none

/-- `ReliableUDPClient.create_ack`: cumulative ACK followed by up to two SACK
blocks, padded with zero 32-bit fields to a 20-byte datagram.  `none` models
`struct.error` for an out-of-range field. -/
def createAck (cum : ℕ) (blocks : List (ℕ × ℕ)) : Option (List ℕ) :=
  let fields := (blocks.take 2).flatMap fun p => [p.1, p.2]
  packList (cum :: (fields ++ List.replicate (4 - fields.length) 0))

/-- `ReliableUDPClient.parse_packet`: a datagram shorter than the 20-byte
header is rejected (`None`), otherwise the big-endian sequence number and the
payload after the header are returned. -/
def parsePacket (raw : List ℕ) : Option (ℕ × List ℕ) :=
  if raw.length < HEADER_SIZE then none
  else some (unpackU32 raw, raw.drop HEADER_SIZE)

/-- `ReliableUDPServer.parse_ack` (identical in both server variants):
a datagram shorter than 20 bytes yields `(None, [])`; otherwise the
cumulative ACK and the SACK blocks from the 16 reserved bytes, where an
all-zero pair marks an empty slot. -/
def parseAckRaw (raw : List ℕ) : Option ℕ × List (ℕ × ℕ) :=
  if raw.length < SEQ_NUM_SIZE + RESERVED_SIZE then (none, [])
  else
    let sb := raw.drop 4
    let b1 : ℕ × ℕ := (unpackU32 sb, unpackU32 (sb.drop 4))
    let b2 : ℕ × ℕ := (unpackU32 (sb.drop 8), unpackU32 (sb.drop 12))
    (some (unpackU32 raw),
      (if b1.1 = 0 ∧ b1.2 = 0 then [] else [b1]) ++
      (if b2.1 = 0 ∧ b2.2 = 0 then [] else [b2]))

/-! ## Send buffer (`send_file` chunking loop)

The file is split into consecutive `DATA_SIZE`-byte chunks with a final
shorter remainder.  The recursion is fuelled by the list length so that it
is structural and evaluates inside the kernel. -/

def chunksF : ℕ → List ℕ → List (List ℕ)
  | 0, _ => []
  | _, [] => []
  | f + 1, l => l.take DATA_SIZE :: chunksF f (l.drop DATA_SIZE)

def chunks (l : List ℕ) : List (List ℕ) := chunksF l.length l

/-! ## RTT/RTO estimator (`update_rto_on_sample`, identical in both servers)

Python float arithmetic is modelled by exact rationals.  Note that the code
detects "first sample" by `estimated_rtt == TIMEOUT_INITIAL` (= 1.0), not by
a flag. -/

def TIMEOUT_INITIAL : ℚ := 1

structure RttState where
  srtt : ℚ
  rttvar : ℚ
  rto : ℚ
deriving DecidableEq, Repr

def initRtt : RttState := ⟨TIMEOUT_INITIAL, 0, TIMEOUT_INITIAL⟩

def updateRto (st : RttState) (sample : ℚ) : RttState :=
  if st.srtt = TIMEOUT_INITIAL then
    let s := sample
    let v := sample / 2
    ⟨s, v, max (1/20) (min (s + 4 * v) 5)⟩
  else
    let v := (1 - 1/4) * st.rttvar + (1/4) * |sample - st.srtt|
    let s := (1 - 1/8) * st.srtt + (1/8) * sample
    ⟨s, v, max (1/20) (min (s + 4 * v) 5)⟩

/-- The estimator as worded by the specification: the first sample ever is
recognised by an explicit "no sample yet" state (`none`), not by comparing
SRTT against the initial value.  Used to compare the code's estimator with
the specified recurrence. -/
def specUpdate : Option RttState → ℚ → RttState
  | none, sample => ⟨sample, sample / 2,
      max (1/20) (min (sample + 4 * (sample / 2)) 5)⟩
  | some st, sample =>
    let v := (1 - 1/4) * st.rttvar + (1/4) * |sample - st.srtt|
    let s := (1 - 1/8) * st.srtt + (1/8) * sample
    ⟨s, v, max (1/20) (min (s + 4 * v) 5)⟩

/-- Folding the specified recurrence over a sample sequence. -/
def specRun (l : List ℚ) : Option RttState :=
  l.foldl (fun o s => some (specUpdate o s)) none

/-- Folding the code's `update_rto_on_sample` over a sample sequence from the
initial state. -/
def codeRun (l : List ℚ) : RttState :=
  l.foldl updateRto initRtt

/-! ## CUBIC congestion state (`ReliableUDPServerCubic`)

`K = ((W_max · β) / C)^(1/3)` is an irrational cube root of a float; the
value assigned to `K` at an epoch start is abstracted as a parameter `κ`
supplied by the environment (no claim depends on its value). -/

def C_CUBIC : ℚ := 10000

def BETA_CUBIC : ℚ := 3 / 10

def CWND_DEC : ℚ := 1 / 2

def MAX_CWND : ℚ := 10000

structure CubicState where
  cwnd : ℚ
  Wmax : ℚ
  epochStart : Option ℚ
  K : ℚ
  inRecovery : Bool
deriving DecidableEq, Repr

/-- `ReliableUDPServerCubic.__init__`: `cwnd = DATA_SIZE` (one MSS),
`Wmax = 200·DATA_SIZE`, no epoch, not in recovery. -/
def initCubic : CubicState :=
  ⟨(DATA_SIZE : ℚ), 200 * (DATA_SIZE : ℚ), none, 0, false⟩

/-- `ReliableUDPServerCubic.on_congestion_event`. -/
def onCongestionEvent (severe : Bool) (st : CubicState) : CubicState :=
  if severe then
    { st with Wmax := st.cwnd / 2, cwnd := 10 * (DATA_SIZE : ℚ), epochStart := none }
  else
    { st with Wmax := st.cwnd, cwnd := st.cwnd * CWND_DEC, epochStart := none }

/-- `ReliableUDPServerCubic.cubic_update`: no-op in recovery; at an unset
epoch it only opens the epoch (recording `κ` for the cube root `K`);
otherwise `cwnd ← clamp(C·(t−K)³ + W_max, 10·DATA_SIZE, 10000·DATA_SIZE)`. -/
def cubicUpdate (κ now : ℚ) (st : CubicState) : CubicState :=
  if st.inRecovery then st
  else
    match st.epochStart with
    | none => { st with epochStart := some now, K := κ }
    | some t0 =>
      let w := C_CUBIC * (now - t0 - st.K) ^ 3 + st.Wmax
      { st with cwnd := max (10 * (DATA_SIZE : ℚ)) (min w (MAX_CWND * (DATA_SIZE : ℚ))) }

/-- `p2_server.py` line 222–223: while in recovery each further duplicate ACK
inflates `cwnd` by one MSS, with no cap applied. -/
def dupAckInflate (st : CubicState) : CubicState :=
  { st with cwnd := st.cwnd + (DATA_SIZE : ℚ) }

/-! ## EOF closure loops

Each receive attempt is driven by an oracle event: either the socket timed
out after one RTO, or an ACK with cumulative value `c` arrived. -/

inductive EofEv where
  | timeout
  | ackRecv (c : ℕ)
deriving DecidableEq, Repr

inductive EofOutcome where
  /-- a cumulative ACK strictly above the EOF sequence arrived; `sends`
  transmissions of the EOF segment were made. -/
  | acked (sends : ℕ)
  /-- variant A exhausted its 10 retries and printed the warning. -/
  | warned (sends : ℕ)
  /-- variant B's 5-iteration `for` loop ended without a qualifying ACK
  (no warning is printed). -/
  | finished (sends : ℕ)
  /-- the event oracle was exhausted while the loop would have continued. -/
  | pending (sends : ℕ)
deriving DecidableEq, Repr

/-- `p1_server.py` lines 199–224: `while retries < 10 and not eof_acked`,
the EOF segment is resent on entry to each iteration; only a socket timeout
increments `retries`; an ACK with `cum_ack > eof_seq` stops the loop. -/
def p1EofLoop (eofSeq : ℕ) : ℕ → ℕ → List EofEv → EofOutcome
  | retries, sends, evs =>
    if 10 ≤ retries then .warned sends
    else
      match evs with
      | [] => .pending sends
      | .timeout :: rest => p1EofLoop eofSeq (retries + 1) (sends + 1) rest
      | .ackRecv c :: rest =>
        if eofSeq < c then .acked (sends + 1)
        else p1EofLoop eofSeq retries (sends + 1) rest

/-- `p2_server.py` lines 271–286: `for i in range(5)`, one transmission per
iteration, stopping early only on an ACK with `cum_ack > eof_seq`; no
warning is printed on exhaustion. -/
def p2EofLoop (eofSeq : ℕ) : ℕ → ℕ → List EofEv → EofOutcome
  | i, sends, evs =>
    if 5 ≤ i then .finished sends
    else
      match evs with
      | [] => .pending sends
      | .timeout :: rest => p2EofLoop eofSeq (i + 1) (sends + 1) rest
      | .ackRecv c :: rest =>
        if eofSeq < c then .acked (sends + 1)
        else p2EofLoop eofSeq (i + 1) (sends + 1) rest

/-! ## Sorted iteration over a Python `set`

`sorted(s)` for a Python set is modelled by an insertion sort of the
underlying multiset of a `Finset ℕ`; this evaluates inside the kernel. -/

def sortedOf (s : Finset ℕ) : List ℕ :=
  Quotient.liftOn s.val (fun l => List.insertionSort (· ≤ ·) l)
    (fun a b hab => List.eq_of_perm_of_sorted
      (((List.perm_insertionSort _ a).trans hab).trans (List.perm_insertionSort _ b).symm)
      (List.sorted_insertionSort _ a) (List.sorted_insertionSort _ b))

/-! ## Receiver state and reassembly (`ReliableUDPClient.receive_file`)

`receive_buffer` (a dict) is modelled as a function to `Option`, kept in sync
with `received_seqs` exactly as the code keeps them (every insertion and
removal touches both).  `received_seqs.remove` inside the delivery loop is
modelled by `Finset.erase`; the element is always present because the two
containers are updated in lock step. -/

structure RState where
  buf : ℕ → Option (List ℕ)
  received : Finset ℕ
  nextExp : ℕ
  out : List ℕ

def initR : RState := ⟨fun _ => none, ∅, 0, []⟩

/-- The in-order delivery loop (`while made_progress: ...`), fuelled by the
number of buffered segments, which always suffices because the buffer's
domain equals `received`. -/
def deliver : ℕ → RState → RState
  | 0, st => st
  | f + 1, st =>
    match st.buf st.nextExp with
    | none => st
    | some d =>
      deliver f { buf := (fun n => if n = st.nextExp then none else st.buf n),
                  received := st.received.erase st.nextExp,
                  nextExp := st.nextExp + 1,
                  out := st.out ++ d }

/-- `while (start - 1) in self.received_seqs: start -= 1`, structurally
recursive on `start`. -/
def expandDown (r : Finset ℕ) : ℕ → ℕ
  | 0 => 0
  | s + 1 => if s ∈ r then expandDown r s else s + 1

/-- `while (end + 1) in self.received_seqs: end += 1`, fuelled by `r.card`
(a contiguous run in `r` has at most `r.card` elements). -/
def expandUp (r : Finset ℕ) : ℕ → ℕ → ℕ
  | 0, e => e
  | f + 1, e => if (e + 1) ∈ r then expandUp r f (e + 1) else e

/-- The block-scanning loop of `find_sack_blocks`: split an ascending list
into maximal runs of consecutive integers; `(s, e)` is the run being built. -/
def scanRunsAux (s e : ℕ) : List ℕ → List (ℕ × ℕ)
  | [] => [(s, e)]
  | x :: rest =>
    if x = e + 1 then scanRunsAux s x rest else (s, e) :: scanRunsAux x x rest

def scanRuns : List ℕ → List (ℕ × ℕ)
  | [] => []
  | x :: rest => scanRunsAux x x rest

/-- `ReliableUDPClient.find_sack_blocks`: the first block is the maximal
contiguous run around the most recent sequence (if still undelivered); the
second is the first scanned run not containing it. -/
def findSackBlocks (r : Finset ℕ) (recent? : Option ℕ) : List (ℕ × ℕ) :=
  match recent? with
  | none => []
  | some recent =>
    if recent ∈ r then
      let first : ℕ × ℕ := (expandDown r recent, expandUp r r.card recent)
      let runs := scanRuns (sortedOf r)
      let second := runs.find? fun br => !(decide (br.1 ≤ recent) && decide (recent ≤ br.2))
      (first :: (match second with | some b => [b] | none => [])).take 2
    else []

/-- What one arrival turn of the receive loop emits. -/
inductive Emit where
  /-- a normal ACK carrying `(next_expected_seq, sack_blocks)`. -/
  | ack (cum : ℕ) (blocks : List (ℕ × ℕ))
  /-- the EOF branch: the final ACK `(seq+1, no SACK)`, sent five times,
  after which the loop breaks. -/
  | finalAck (cum : ℕ)
  /-- `struct.error` from `create_ack`; the exception aborts `receive_file`
  (no output file is written). -/
  | crash

/-- One arrival turn of `receive_file` on a parsed `(seq, data)` packet:
EOF test first (payload comparison only), then buffering of unseen
sequences, in-order delivery, SACK synthesis around the arrived sequence,
and ACK construction. -/
def clientStep (st : RState) (seq : ℕ) (d : List ℕ) : RState × Emit :=
  if d = eofMarker then
    match createAck (seq + 1) [] with
    | some _ => (st, .finalAck (seq + 1))
    | none => (st, .crash)
  else
    let st1 := if seq ∈ st.received then st
               else { st with buf := (fun n => if n = seq then some d else st.buf n),
                              received := insert seq st.received }
    let st2 := deliver st1.received.card st1
    let blocks := findSackBlocks st2.received (some seq)
    match createAck st2.nextExp blocks with
    | some _ => (st2, .ack st2.nextExp blocks)
    | none => (st2, .crash)

/-- Result of running the receive loop over a finite arrival oracle. -/
structure RunResult where
  st : RState
  /-- every ACK emitted, in order (the final ACK appears five times). -/
  acks : List (ℕ × List (ℕ × ℕ))
  /-- the loop broke out via the EOF branch (only then is the output file
  written). -/
  done : Bool
  /-- `struct.error` aborted the loop. -/
  crashed : Bool

/-- Run `receive_file` over a list of raw datagrams.  A datagram whose
parse fails (shorter than 20 bytes) is skipped with all state unchanged
(`if seq is None: continue`).  Idle-timeout ACK retransmissions change no
state and reuse `findSackBlocks`, so they are not part of the oracle. -/
def runRaw (st : RState) : List (List ℕ) → RunResult
  | [] => ⟨st, [], false, false⟩
  | raw :: rest =>
    match parsePacket raw with
    | none => runRaw st rest
    | some (seq, d) =>
      match clientStep st seq d with
      | (st', .ack c bs) =>
        let r := runRaw st' rest
        ⟨r.st, (c, bs) :: r.acks, r.done, r.crashed⟩
      | (st', .finalAck c) => ⟨st', List.replicate 5 (c, []), true, false⟩
      | (st', .crash) => ⟨st', [], false, true⟩

/-- An arrival datagram is valid for chunk list `cs` when, if it parses at
all, it is either data segment `s` carrying exactly chunk `s`, or the EOF
segment at sequence `cs.length`. -/
def validArrival (cs : List (List ℕ)) (raw : List ℕ) : Bool :=
  match parsePacket raw with
  | none => true
  | some (s, d) =>
    (decide (s < cs.length) && decide (cs.get? s = some d)) ||
    (decide (s = cs.length) && decide (d = eofMarker))

/-- Receiver invariant tying the state to the chunk list: the output is the
concatenation of the first `nextExp` chunks, and every buffered payload is
the chunk of its sequence number. -/
def GoodR (cs : List (List ℕ)) (st : RState) : Prop :=
  st.out = (cs.take st.nextExp).flatten ∧
  ∀ n d, st.buf n = some d → cs.get? n = some d

/-! ## Sender-side retransmission tracker

Timestamps (`time.time()` floats) are exact rationals supplied by the
environment.  `bytes_in_flight` is a Python `int`, hence `ℤ`. -/

abbrev Time := ℚ

structure Tracker where
  sentOnce : Finset ℕ
  unacked : Finset ℕ
  sendTimes : ℕ → Option Time
  bytesInFlight : ℤ

def initTracker : Tracker := ⟨∅, ∅, fun _ => none, 0⟩

/-- The admission-loop body's tracker effect (`send_file` lines 113–123 of
`p1_server.py`): a first send enters `sent_once`/`unacked` and adds the
payload length to the in-flight count; every send refreshes the send time. -/
def Tracker.recordSend (pb : List ℕ) (seq : ℕ) (now : Time) (t : Tracker) : Tracker :=
  if seq ∈ t.sentOnce then
    ⟨t.sentOnce, t.unacked,
     (fun n => if n = seq then some now else t.sendTimes n), t.bytesInFlight⟩
  else
    ⟨insert seq t.sentOnce, insert seq t.unacked,
     (fun n => if n = seq then some now else t.sendTimes n),
     t.bytesInFlight + (pb.getD seq 0 : ℤ)⟩

/-- A retransmission's tracker effect: only the send time is refreshed
(the record is not discarded). -/
def Tracker.refreshTime (seq : ℕ) (now : Time) (t : Tracker) : Tracker :=
  { t with sendTimes := (fun n => if n = seq then some now else t.sendTimes n) }

/-- Refresh the send times of a set of sequence numbers (timer sweep). -/
def Tracker.refreshAll (seqs : Finset ℕ) (now : Time) (t : Tracker) : Tracker :=
  { t with sendTimes := (fun n => if n ∈ seqs then some now else t.sendTimes n) }

/-- `min(self.unacked)` — `None` when the set is empty. -/
def oldestUnacked (s : Finset ℕ) : Option ℕ := (sortedOf s).head?

/-- Does the SACK block `b` cover sequence `s`?  Variant A (`clip = true`)
clips the block's end to `total - 1` (`p1_server.py` lines 160–162); variant
B uses the raw block (`p2_server.py` lines 229–232). -/
def sackCov (clip : Bool) (total : ℕ) (b : ℕ × ℕ) (s : ℕ) : Prop :=
  if clip then b.1 ≤ s ∧ (s : ℤ) ≤ min (b.2 : ℤ) ((total : ℤ) - 1)
  else b.1 ≤ s ∧ s ≤ b.2

instance (clip : Bool) (total : ℕ) (b : ℕ × ℕ) (s : ℕ) :
    Decidable (sackCov clip total b s) := by
  unfold sackCov; split <;> infer_instance

/-- `self.send_times.get(seq)` tested with Python truthiness (`if send_t`):
`None` and the float `0.0` are both falsy. -/
def timedOut (ts? : Option Time) (rto now : Time) : Prop :=
  match ts? with
  | none => False
  | some ts => ts ≠ 0 ∧ rto < now - ts

instance (ts? : Option Time) (rto now : Time) : Decidable (timedOut ts? rto now) := by
  unfold timedOut; split <;> infer_instance

/-- Release `seq` from the in-flight accounting: remove it from `unacked`
(`if seq in self.unacked: self.unacked.remove(seq)` — a guarded remove is
an unconditional erase) and subtract its payload length
(`self.bytes_in_flight -= self.packet_bytes[seq]`, unconditional in the
code). -/
def Tracker.release (seq b : ℕ) (t : Tracker) : Tracker :=
  ⟨t.sentOnce, t.unacked.erase seq, t.sendTimes, t.bytesInFlight - (b : ℤ)⟩

/-- `del self.send_times[seq]`. -/
def Tracker.delTime (seq : ℕ) (t : Tracker) : Tracker :=
  ⟨t.sentOnce, t.unacked, (fun n => if n = seq then none else t.sendTimes n),
   t.bytesInFlight⟩

/-- The `for seq in sorted(newly_acked)` release loop (`p1_server.py` lines
167–176): remove from `unacked`, subtract the payload length
(`self.packet_bytes[seq]` — `IndexError` modelled as `.error`),
and if a send-time record exists, emit the RTT sample `now − send_time[seq]`
and delete the record.  Returns the released tracker and the samples in
processing order. -/
def ackLoop (pb : List ℕ) (now : Time) : List ℕ → Tracker → Except Unit (Tracker × List Time)
  | [], t => .ok (t, [])
  | s :: rest, t =>
    match pb.get? s with
    | none => .error ()
    | some b =>
      match t.sendTimes s with
      | some ts =>
        match ackLoop pb now rest ((t.release s b).delTime s) with
        | .ok (t', smp) => .ok (t', (now - ts) :: smp)
        | .error e => .error e
      | none => ackLoop pb now rest (t.release s b)

/-- The `newly_acked` set of one ACK: every unacked sequence below the
cumulative value, plus every unacked sequence covered by a SACK block. -/
def newlyAcked (clip : Bool) (pb : List ℕ) (c : ℕ) (blocks : List (ℕ × ℕ))
    (t : Tracker) : Finset ℕ :=
  t.unacked.filter (fun s => s < c) ∪
  t.unacked.filter (fun s => ∃ b ∈ blocks, sackCov clip pb.length b s)

/-- The tracker part of one ACK-processing step (`p1_server.py` lines
153–176 / `p2_server.py` lines 224–243): collect `newly_acked` from the
cumulative value and the SACK blocks, then run the release loop in
ascending order.  A parse failure leaves `cum_ack = None`; the comparison
`seq < None` then raises `TypeError` (modelled as `.error`) as soon as
`unacked` is non-empty. -/
def ackTurnTracker (clip : Bool) (pb : List ℕ) (cum : Option ℕ)
    (blocks : List (ℕ × ℕ)) (now : Time) (t : Tracker) :
    Except Unit (Tracker × List Time) :=
  match cum with
  | none => if t.unacked = ∅ then .ok (t, []) else .error ()
  | some c => ackLoop pb now (sortedOf (newlyAcked clip pb c blocks t)) t

/-! ## Send-loop engine events

One send-loop turn of either sender is a composition of the events below;
the congestion bookkeeping of variant B never touches the tracker. -/

structure SendState where
  tr : Tracker
  nextSeq : ℕ

inductive SendEv where
  /-- one iteration of the admission `while` (window `w` is `SWS` for
  variant A and `cwnd` for variant B; if the guard fails, no-op). -/
  | sendNew (w : ℤ) (now : Time)
  /-- the tracker part of processing a received ACK. -/
  | ackTurn (clip : Bool) (cum : Option ℕ) (blocks : List (ℕ × ℕ)) (now : Time)
  /-- fast retransmit of `min(unacked)` (no-op when `unacked` is empty). -/
  | fastRetx (now : Time)
  /-- timer sweep: retransmit every unacked segment whose last send time
  has expired (also the recovery-stall sweep of variant B). -/
  | timerRetx (rto now : Time)

def isRetxEv : SendEv → Prop
  | .fastRetx _ => True
  | .timerRetx _ _ => True
  | _ => False

def sendStep (pb : List ℕ) (ev : SendEv) (st : SendState) : Except Unit SendState :=
  match ev with
  | .sendNew w now =>
    match pb.get? st.nextSeq with
    | none => .ok st
    | some b =>
      if st.tr.bytesInFlight + (b : ℤ) ≤ w then
        .ok ⟨st.tr.recordSend pb st.nextSeq now, st.nextSeq + 1⟩
      else .ok st
  | .ackTurn clip cum blocks now =>
    (ackTurnTracker clip pb cum blocks now st.tr).map fun p => ⟨p.1, st.nextSeq⟩
  | .fastRetx now =>
    match oldestUnacked st.tr.unacked with
    | none => .ok st
    | some m =>
      if m < pb.length then .ok ⟨st.tr.refreshTime m now, st.nextSeq⟩ else .error ()
  | .timerRetx rto now =>
    let touts := st.tr.unacked.filter (fun s => timedOut (st.tr.sendTimes s) rto now)
    if ∀ s ∈ touts, s < pb.length then .ok ⟨st.tr.refreshAll touts now, st.nextSeq⟩
    else .error ()

/-- The tracker invariant: `unacked` addresses real segments, is contained
in `sent_once`, and `bytes_in_flight` is the sum of the unacked payload
lengths. -/
def TrkInv (pb : List ℕ) (t : Tracker) : Prop :=
  t.unacked ⊆ Finset.range pb.length ∧ t.unacked ⊆ t.sentOnce ∧
  t.bytesInFlight = ∑ s ∈ t.unacked, (pb.getD s 0 : ℤ)

instance (pb : List ℕ) (t : Tracker) : Decidable (TrkInv pb t) := by
  unfold TrkInv; infer_instance

/-! ## The full ACK-receive turn of variant A (`p1_server.py` lines 132–176)

Includes duplicate-ACK counting (Python `==` between `None` and `int` is
`False`; `None == None` is `True`), the fast-retransmit trigger, and the
estimator updates driven by the release loop's samples. -/

def pyEqOptInt : Option ℤ → Option ℤ → Bool
  | none, none => true
  | some a, some b => a == b
  | _, _ => false

structure P1State where
  tr : Tracker
  nextSeq : ℕ
  rtt : RttState
  lastCumAck : Option ℤ
  dupAckCount : ℕ

/-- One pass through the `try` body after `recvfrom` returned `raw`:
`nowR` is the clock at the fast-retransmit resend, `nowA` the clock at the
release loop. -/
def p1RecvTurn (pb : List ℕ) (raw : List ℕ) (nowR nowA : Time) (st : P1State) :
    Except Unit P1State :=
  let pa := parseAckRaw raw
  let cumI : Option ℤ := pa.1.map fun n => (n : ℤ)
  let st1 :=
    if pyEqOptInt cumI st.lastCumAck then { st with dupAckCount := st.dupAckCount + 1 }
    else { st with lastCumAck := cumI, dupAckCount := 0 }
  let fr : Except Unit P1State :=
    if 3 ≤ st1.dupAckCount then
      match oldestUnacked st1.tr.unacked with
      | none => .ok st1
      | some m =>
        if m < pb.length then
          .ok { st1 with tr := st1.tr.refreshTime m nowR, dupAckCount := 0 }
        else .error ()
    else .ok st1
  fr.bind fun st2 =>
    (ackTurnTracker true pb pa.1 pa.2 nowA st2.tr).map fun p =>
      { st2 with tr := p.1, rtt := p.2.foldl updateRto st2.rtt }

/-- Claim C2, counterexample setup: two 3-byte segments, both sent at time
1 and unacked; the tracker was never acknowledged, `last_cum_ack = -1`. -/
def c2st0 : P1State :=
  ⟨⟨{0, 1}, {0, 1}, (fun n => if n = 0 then some 1 else if n = 1 then some 1 else none), 6⟩,
   2, initRtt, some (-1), 0⟩

/-- Four receptions of the same cumulative ACK 0 (a fresh ACK, then three
duplicates): the third duplicate triggers fast retransmit of segment 0 at
time 5, refreshing its send-time record. -/
def c2mid : Except Unit P1State :=
  (((p1RecvTurn [3, 3] (List.replicate 20 0) 5 5 c2st0).bind
      (p1RecvTurn [3, 3] (List.replicate 20 0) 5 5)).bind
      (p1RecvTurn [3, 3] (List.replicate 20 0) 5 5)).bind
      (p1RecvTurn [3, 3] (List.replicate 20 0) 5 5)

/-- ... followed by the ACK `cum_ack = 2` processed at time 7, which
acknowledges both segments. -/
def c2run : Except Unit P1State :=
  c2mid.bind (p1RecvTurn [3, 3] ([0, 0, 0, 2] ++ List.replicate 16 0) 6 7)

/-- A tracker for the witness of C2's amended theorem: one 4-byte segment,
send-time record 3. -/
def c2wt : Tracker := ⟨{0}, {0}, (fun n => if n = 0 then some (3 : ℚ) else none), 4⟩

/-- A sender state whose only segment is unacked, for C5. -/
def c5st : P1State :=
  ⟨⟨{0}, {0}, (fun n => if n = 0 then some 1 else none), 3⟩, 1, initRtt, some (-1), 0⟩

/-- A sender state with nothing unacked, for C5. -/
def c5stEmpty : P1State := ⟨⟨{0}, ∅, (fun _ => none), 0⟩, 1, initRtt, some (-1), 0⟩

/-- A tracker for the witness of C9: one 3-byte segment unacked with no
send-time record. -/
def c9t : Tracker := ⟨{0}, {0}, (fun _ => none), 3⟩

/-! # Lemmas -/

/-! ## Estimator refinement lemmas (C7) -/

lemma updateRto_eq_specUpdate (st : RttState) (s : ℚ) (h : st.srtt ≠ TIMEOUT_INITIAL) :
    updateRto st s = specUpdate (some st) s := by
  simp [updateRto, specUpdate, h]

lemma updateRto_srtt_gt (st : RttState) (s : ℚ) (h : 1 < st.srtt) (hs : 1 < s) :
    1 < (updateRto st s).srtt := by
  have hne : st.srtt ≠ TIMEOUT_INITIAL := by
    rw [TIMEOUT_INITIAL]; exact ne_of_gt h
  rw [updateRto, if_neg hne]
  show 1 < (1 - 1/8) * st.srtt + 1/8 * s
  nlinarith

lemma specRun_agrees (l : List ℚ) : ∀ st : RttState, 1 < st.srtt → (∀ s ∈ l, 1 < s) →
    l.foldl (fun o s => some (specUpdate o s)) (some st) = some (l.foldl updateRto st) ∧
    1 < (l.foldl updateRto st).srtt := by
  induction l with
  | nil => intro st h _; exact ⟨rfl, h⟩
  | cons s rest ih =>
    intro st h hall
    have hs : 1 < s := hall s (by simp)
    have hne : st.srtt ≠ TIMEOUT_INITIAL := by rw [TIMEOUT_INITIAL]; exact ne_of_gt h
    have hstep := updateRto_eq_specUpdate st s hne
    have := ih (updateRto st s) (updateRto_srtt_gt st s h hs)
      (fun x hx => hall x (by simp [hx]))
    simpa [List.foldl, hstep] using this

/-! ## EOF-loop lemmas (C8) -/

lemma p1EofLoop_replicate (N : ℕ) : ∀ (k r s : ℕ),
    p1EofLoop N r s (List.replicate k .timeout) =
      if 10 ≤ r then .warned s
      else if r + k < 10 then .pending (s + k) else .warned (s + (10 - r)) := by
  intro k
  induction k with
  | zero =>
    intro r s
    rw [p1EofLoop.eq_def]
    simp only [List.replicate]
    split_ifs <;> first | rfl | omega | simp | (exfalso; omega)
  | succ k ih =>
    intro r s
    rw [p1EofLoop.eq_def]
    simp only [List.replicate]
    by_cases h1 : 10 ≤ r
    · simp [h1]
    · simp only [if_neg h1]
      rw [ih (r + 1) (s + 1)]
      split_ifs <;> first | omega | (congr 1; omega) | (exfalso; omega)

lemma p2EofLoop_replicate (N : ℕ) : ∀ (k i s : ℕ),
    p2EofLoop N i s (List.replicate k .timeout) =
      if 5 ≤ i then .finished s
      else if i + k < 5 then .pending (s + k) else .finished (s + (5 - i)) := by
  intro k
  induction k with
  | zero =>
    intro i s
    rw [p2EofLoop.eq_def]
    simp only [List.replicate]
    split_ifs <;> first | rfl | omega | simp | (exfalso; omega)
  | succ k ih =>
    intro i s
    rw [p2EofLoop.eq_def]
    simp only [List.replicate]
    by_cases h1 : 5 ≤ i
    · simp [h1]
    · simp only [if_neg h1]
      rw [ih (i + 1) (s + 1)]
      split_ifs <;> first | omega | (congr 1; omega) | (exfalso; omega)

/-! ## Chunking lemmas (C1) -/

lemma chunksF_flatten : ∀ (f : ℕ) (l : List ℕ), l.length ≤ f → (chunksF f l).flatten = l := by
  intro f
  induction f with
  | zero =>
    intro l h
    have : l = [] := List.eq_nil_of_length_eq_zero (Nat.le_zero.mp h)
    subst this; rfl
  | succ f ih =>
    intro l h
    match l with
    | [] => rfl
    | x :: t =>
      show (((x :: t).take DATA_SIZE) :: chunksF f ((x :: t).drop DATA_SIZE)).flatten = x :: t
      rw [List.flatten_cons, ih _ ?_, List.take_append_drop]
      have hD : 0 < DATA_SIZE := by norm_num [DATA_SIZE, MAX_PAYLOAD_SIZE, HEADER_SIZE]
      simp only [List.length_drop]
      omega

lemma chunks_flatten (l : List ℕ) : (chunks l).flatten = l :=
  chunksF_flatten l.length l le_rfl

/-! ## Receiver invariant lemmas (C1) -/

lemma deliver_good (cs : List (List ℕ)) :
    ∀ (f : ℕ) (st : RState), GoodR cs st → GoodR cs (deliver f st) := by
  intro f
  induction f with
  | zero => intro st h; exact h
  | succ f ih =>
    intro st h
    rw [deliver]
    cases hb : st.buf st.nextExp with
    | none => exact h
    | some d =>
      apply ih
      obtain ⟨hout, hbuf⟩ := h
      have hg : cs.get? st.nextExp = some d := hbuf _ _ hb
      constructor
      · show st.out ++ d = (cs.take (st.nextExp + 1)).flatten
        rw [List.take_succ, List.flatten_append, hout, ← List.get?_eq_getElem?, hg]
        simp
      · intro n d' hn
        show cs.get? n = some d'
        by_cases hc : n = st.nextExp
        · subst hc; simp at hn
        · simp only [if_neg hc] at hn
          exact hbuf _ _ hn

lemma clientStep_good (cs : List (List ℕ)) (st : RState) (seq : ℕ) (d : List ℕ)
    (h : GoodR cs st) (hv : cs.get? seq = some d ∨ d = eofMarker) :
    GoodR cs (clientStep st seq d).1 := by
  rw [clientStep]
  by_cases he : d = eofMarker
  · rw [if_pos he]
    split <;> exact h
  · have hg : cs.get? seq = some d := hv.resolve_right he
    rw [if_neg he]
    have h1 : GoodR cs (if seq ∈ st.received then st
        else { st with buf := (fun n => if n = seq then some d else st.buf n),
                       received := insert seq st.received }) := by
      split
      · exact h
      · obtain ⟨hout, hbuf⟩ := h
        refine ⟨hout, ?_⟩
        intro n d' hn
        show cs.get? n = some d'
        by_cases hc : n = seq
        · subst hc
          simp only [if_pos rfl] at hn
          cases hn; exact hg
        · simp only [if_neg hc] at hn
          exact hbuf _ _ hn
    have h2 := fun f => deliver_good cs f _ h1
    dsimp only
    split <;> exact h2 _

lemma validArrival_elim (cs : List (List ℕ)) (raw : List ℕ) (s : ℕ) (d : List ℕ)
    (hp : parsePacket raw = some (s, d)) (hv : validArrival cs raw = true) :
    cs.get? s = some d ∨ d = eofMarker := by
  rw [validArrival, hp] at hv
  simp only [Bool.or_eq_true, Bool.and_eq_true, decide_eq_true_eq] at hv
  rcases hv with ⟨_, h2⟩ | ⟨_, h2⟩
  · exact Or.inl h2
  · exact Or.inr h2

lemma runRaw_good (cs : List (List ℕ)) :
    ∀ (arr : List (List ℕ)) (st : RState), GoodR cs st →
      (∀ raw ∈ arr, validArrival cs raw = true) → GoodR cs (runRaw st arr).st := by
  intro arr
  induction arr with
  | nil => intro st h _; exact h
  | cons raw rest ih =>
    intro st h hv
    have hvrest : ∀ r ∈ rest, validArrival cs r = true := fun r hr => hv r (by simp [hr])
    cases hp : parsePacket raw with
    | none =>
      simp only [runRaw, hp]
      exact ih st h hvrest
    | some pr =>
      obtain ⟨s, d⟩ := pr
      have hval := validArrival_elim cs raw s d hp (hv raw (by simp))
      have hstep := clientStep_good cs st s d h hval
      cases hc : clientStep st s d with
      | mk st' em =>
        rw [hc] at hstep
        cases em with
        | ack c bs =>
          simp only [runRaw, hp, hc]
          exact ih st' hstep hvrest
        | finalAck c =>
          simp only [runRaw, hp, hc]
          exact hstep
        | crash =>
          simp only [runRaw, hp, hc]
          exact hstep

/-! ## SACK-synthesis lemmas (C3) -/

lemma expandDown_le (r : Finset ℕ) : ∀ s, expandDown r s ≤ s := by
  intro s
  induction s with
  | zero => exact le_rfl
  | succ s ih =>
    rw [expandDown]
    split
    · exact ih.trans (Nat.le_succ s)
    · exact le_rfl

lemma expandDown_mem (r : Finset ℕ) :
    ∀ s, s ∈ r → ∀ x, expandDown r s ≤ x → x ≤ s → x ∈ r := by
  intro s
  induction s with
  | zero =>
    intro hs x _ h2
    have : x = 0 := Nat.le_zero.mp h2
    subst this; exact hs
  | succ s ih =>
    intro hs x h1 h2
    rw [expandDown] at h1
    by_cases hm : s ∈ r
    · rw [if_pos hm] at h1
      rcases Nat.eq_or_lt_of_le h2 with hc | hc
      · subst hc; exact hs
      · exact ih hm x h1 (by omega)
    · rw [if_neg hm] at h1
      have : x = s + 1 := le_antisymm h2 h1
      subst this; exact hs

lemma expandUp_ge (r : Finset ℕ) : ∀ f e, e ≤ expandUp r f e := by
  intro f
  induction f with
  | zero => intro e; exact le_rfl
  | succ f ih =>
    intro e
    rw [expandUp]
    split
    · exact (Nat.le_succ e).trans (ih (e + 1))
    · exact le_rfl

lemma expandUp_mem (r : Finset ℕ) :
    ∀ f e, e ∈ r → ∀ x, e ≤ x → x ≤ expandUp r f e → x ∈ r := by
  intro f
  induction f with
  | zero =>
    intro e he x h1 h2
    rw [expandUp] at h2
    have : x = e := le_antisymm h2 h1
    subst this; exact he
  | succ f ih =>
    intro e he x h1 h2
    rw [expandUp] at h2
    by_cases hm : (e + 1) ∈ r
    · rw [if_pos hm] at h2
      rcases Nat.eq_or_lt_of_le h1 with hc | hc
      · subst hc; exact he
      · exact ih (e + 1) hm x hc h2
    · rw [if_neg hm] at h2
      have : x = e := le_antisymm h2 h1
      subst this; exact he

lemma scanRunsAux_mem (S : Finset ℕ) :
    ∀ (l : List ℕ) (s e : ℕ), (∀ y ∈ l, y ∈ S) → s ≤ e →
      (∀ x, s ≤ x → x ≤ e → x ∈ S) →
      ∀ p ∈ scanRunsAux s e l, p.1 ≤ p.2 ∧ ∀ x, p.1 ≤ x → x ≤ p.2 → x ∈ S := by
  intro l
  induction l with
  | nil =>
    intro s e _ hse hrun p hp
    rw [scanRunsAux] at hp
    simp only [List.mem_singleton] at hp
    subst hp; exact ⟨hse, hrun⟩
  | cons x rest ih =>
    intro s e hl hse hrun p hp
    rw [scanRunsAux] at hp
    by_cases hx : x = e + 1
    · rw [if_pos hx] at hp
      refine ih s x (fun y hy => hl y (List.mem_cons_of_mem _ hy)) (by omega) ?_ p hp
      intro z h1 h2
      by_cases hz : z ≤ e
      · exact hrun z h1 hz
      · have hzx : z = x := by omega
        rw [hzx]; exact hl x (by simp)
    · rw [if_neg hx] at hp
      rcases List.mem_cons.mp hp with hc | hc
      · subst hc; exact ⟨hse, hrun⟩
      · refine ih x x (fun y hy => hl y (List.mem_cons_of_mem _ hy)) le_rfl ?_ p hc
        intro z h1 h2
        have hzx : z = x := le_antisymm h2 h1
        rw [hzx]; exact hl x (by simp)

lemma scanRuns_mem (S : Finset ℕ) (l : List ℕ) (hl : ∀ y ∈ l, y ∈ S) :
    ∀ p ∈ scanRuns l, p.1 ≤ p.2 ∧ ∀ x, p.1 ≤ x → x ≤ p.2 → x ∈ S := by
  match l with
  | [] => intro p hp; cases hp
  | x :: rest =>
    intro p hp
    rw [scanRuns] at hp
    refine scanRunsAux_mem S rest x x (fun y hy => hl y (List.mem_cons_of_mem _ hy))
      le_rfl ?_ p hp
    intro z h1 h2
    have hzx : z = x := le_antisymm h2 h1
    rw [hzx]; exact hl x (by simp)

lemma mem_sortedOf (s : Finset ℕ) (x : ℕ) : x ∈ sortedOf s ↔ x ∈ s := by
  cases s with
  | mk val nd =>
    induction val using Quotient.inductionOn with
    | h l =>
      show x ∈ List.insertionSort (· ≤ ·) l ↔ _
      rw [(List.perm_insertionSort _ l).mem_iff]
      simp [Finset.mem_mk]

/-- `create_ack(c, [])` succeeds whenever `c` fits in 32 bits. -/
lemma createAck_nil_isSome (c : ℕ) (h : c < U32) : (createAck c []).isSome := by
  have h' : c < 4294967296 := h
  simp only [createAck, List.take, List.flatMap, List.replicate, packList, packU32, U32]
  rw [if_pos h']
  norm_num

/-! ## Release-loop lemmas (C2, C6, C9) -/

lemma ackLoop_unacked (pb : List ℕ) (now : Time) :
    ∀ (l : List ℕ) (t t' : Tracker) (smp : List Time),
      ackLoop pb now l t = .ok (t', smp) →
      ∀ x, x ∈ t'.unacked ↔ x ∈ t.unacked ∧ x ∉ l := by
  intro l
  induction l with
  | nil =>
    intro t t' smp h x
    simp only [ackLoop, Except.ok.injEq, Prod.mk.injEq] at h
    obtain ⟨h1, _⟩ := h
    subst h1
    simp
  | cons s rest ih =>
    intro t t' smp h x
    rw [ackLoop] at h
    cases hg : pb.get? s with
    | none => simp only [hg] at h; cases h
    | some b =>
      simp only [hg] at h
      cases hs : t.sendTimes s with
      | some ts =>
        simp only [hs] at h
        cases hrec : ackLoop pb now rest ((t.release s b).delTime s) with
        | error e => simp only [hrec] at h; cases h
        | ok p =>
          obtain ⟨tm, smps⟩ := p
          simp only [hrec] at h
          simp only [Except.ok.injEq, Prod.mk.injEq] at h
          obtain ⟨h1, _⟩ := h
          subst h1
          rw [ih _ _ _ hrec x]
          show x ∈ t.unacked.erase s ∧ x ∉ rest ↔ _
          rw [Finset.mem_erase, List.mem_cons]
          tauto
      | none =>
        simp only [hs] at h
        rw [ih _ _ _ h x]
        show x ∈ t.unacked.erase s ∧ x ∉ rest ↔ _
        rw [Finset.mem_erase, List.mem_cons]
        tauto

lemma ackLoop_bif (pb : List ℕ) (now : Time) :
    ∀ (l : List ℕ) (t t' : Tracker) (smp : List Time),
      ackLoop pb now l t = .ok (t', smp) →
      t'.bytesInFlight = t.bytesInFlight - (l.map fun s => ((pb.getD s 0 : ℕ) : ℤ)).sum := by
  intro l
  induction l with
  | nil =>
    intro t t' smp h
    simp only [ackLoop, Except.ok.injEq, Prod.mk.injEq] at h
    obtain ⟨h1, _⟩ := h
    subst h1
    simp
  | cons s rest ih =>
    intro t t' smp h
    rw [ackLoop] at h
    cases hg : pb.get? s with
    | none => simp only [hg] at h; cases h
    | some b =>
      have hb : pb.getD s 0 = b := by
        simp only [List.getD, List.get?_eq_getElem?] at hg ⊢
        simp [hg]
      simp only [hg] at h
      cases hs : t.sendTimes s with
      | some ts =>
        simp only [hs] at h
        cases hrec : ackLoop pb now rest ((t.release s b).delTime s) with
        | error e => simp only [hrec] at h; cases h
        | ok p =>
          obtain ⟨tm, smps⟩ := p
          simp only [hrec] at h
          simp only [Except.ok.injEq, Prod.mk.injEq] at h
          obtain ⟨h1, _⟩ := h
          subst h1
          have := ih _ _ _ hrec
          simp only [Tracker.delTime, Tracker.release] at this
          simp only [List.map_cons, List.sum_cons, this, hb]
          ring
      | none =>
        simp only [hs] at h
        have := ih _ _ _ h
        simp only [Tracker.release] at this
        simp only [List.map_cons, List.sum_cons, this, hb]
        ring

lemma ackLoop_sendTimes (pb : List ℕ) (now : Time) :
    ∀ (l : List ℕ) (t t' : Tracker) (smp : List Time),
      ackLoop pb now l t = .ok (t', smp) →
      ∀ x, t'.sendTimes x = if x ∈ l then none else t.sendTimes x := by
  intro l
  induction l with
  | nil =>
    intro t t' smp h x
    simp only [ackLoop, Except.ok.injEq, Prod.mk.injEq] at h
    obtain ⟨h1, _⟩ := h
    subst h1
    simp
  | cons s rest ih =>
    intro t t' smp h x
    rw [ackLoop] at h
    cases hg : pb.get? s with
    | none => simp only [hg] at h; cases h
    | some b =>
      simp only [hg] at h
      cases hs : t.sendTimes s with
      | some ts =>
        simp only [hs] at h
        cases hrec : ackLoop pb now rest ((t.release s b).delTime s) with
        | error e => simp only [hrec] at h; cases h
        | ok p =>
          obtain ⟨tm, smps⟩ := p
          simp only [hrec] at h
          simp only [Except.ok.injEq, Prod.mk.injEq] at h
          obtain ⟨h1, _⟩ := h
          subst h1
          rw [ih _ _ _ hrec x]
          show (if x ∈ rest then none else ((t.release s b).delTime s).sendTimes x) = _
          simp only [Tracker.delTime, Tracker.release, List.mem_cons]
          by_cases hx1 : x ∈ rest <;> by_cases hx2 : x = s <;> simp [hx1, hx2]
      | none =>
        simp only [hs] at h
        rw [ih _ _ _ h x]
        show (if x ∈ rest then none else (t.release s b).sendTimes x) = _
        simp only [Tracker.release, List.mem_cons]
        by_cases hx2 : x = s
        · subst hx2
          simp [hs]
        · by_cases hx1 : x ∈ rest <;> simp [hx1, hx2]

lemma ackLoop_sentOnce (pb : List ℕ) (now : Time) :
    ∀ (l : List ℕ) (t t' : Tracker) (smp : List Time),
      ackLoop pb now l t = .ok (t', smp) → t'.sentOnce = t.sentOnce := by
  intro l
  induction l with
  | nil =>
    intro t t' smp h
    simp only [ackLoop, Except.ok.injEq, Prod.mk.injEq] at h
    obtain ⟨h1, _⟩ := h
    subst h1
    rfl
  | cons s rest ih =>
    intro t t' smp h
    rw [ackLoop] at h
    cases hg : pb.get? s with
    | none => simp only [hg] at h; cases h
    | some b =>
      simp only [hg] at h
      cases hs : t.sendTimes s with
      | some ts =>
        simp only [hs] at h
        cases hrec : ackLoop pb now rest ((t.release s b).delTime s) with
        | error e => simp only [hrec] at h; cases h
        | ok p =>
          obtain ⟨tm, smps⟩ := p
          simp only [hrec] at h
          simp only [Except.ok.injEq, Prod.mk.injEq] at h
          obtain ⟨h1, _⟩ := h
          subst h1
          have := ih _ _ _ hrec
          exact this
      | none =>
        simp only [hs] at h
        have := ih _ _ _ h
        exact this

lemma ackLoop_sample (pb : List ℕ) (now : Time) :
    ∀ (l : List ℕ) (t t' : Tracker) (smp : List Time) (s : ℕ) (ts : Time),
      ackLoop pb now l t = .ok (t', smp) → s ∈ l → t.sendTimes s = some ts →
      (now - ts) ∈ smp := by
  intro l
  induction l with
  | nil => intro t t' smp s ts _ hmem _; cases hmem
  | cons a rest ih =>
    intro t t' smp s ts h hmem hts
    rw [ackLoop] at h
    cases hg : pb.get? a with
    | none => simp only [hg] at h; cases h
    | some b =>
      simp only [hg] at h
      by_cases ha : s = a
      · subst ha
        simp only [hts] at h
        cases hrec : ackLoop pb now rest ((t.release s b).delTime s) with
        | error e => simp only [hrec] at h; cases h
        | ok p =>
          obtain ⟨tm, smps⟩ := p
          simp only [hrec] at h
          simp only [Except.ok.injEq, Prod.mk.injEq] at h
          obtain ⟨_, h2⟩ := h
          rw [← h2]
          simp
      · have hmem' : s ∈ rest := by
          rcases List.mem_cons.mp hmem with hc | hc
          · exact absurd hc ha
          · exact hc
        cases hs : t.sendTimes a with
        | some tsa =>
          simp only [hs] at h
          cases hrec : ackLoop pb now rest ((t.release a b).delTime a) with
          | error e => simp only [hrec] at h; cases h
          | ok p =>
            obtain ⟨tm, smps⟩ := p
            simp only [hrec] at h
            simp only [Except.ok.injEq, Prod.mk.injEq] at h
            obtain ⟨_, h2⟩ := h
            have hts' : ((t.release a b).delTime a).sendTimes s = some ts := by
              simp only [Tracker.delTime, Tracker.release]
              simp [ha, hts]
            have := ih _ _ _ s ts hrec hmem' hts'
            rw [← h2]
            simp [this]
        | none =>
          simp only [hs] at h
          exact ih _ _ _ s ts h hmem' hts

/-- Summing a function over the sorted iteration of a `Finset` equals the
`Finset` sum. -/
lemma sum_map_sortedOf (s : Finset ℕ) (f : ℕ → ℤ) :
    ((sortedOf s).map f).sum = ∑ x ∈ s, f x := by
  cases s with
  | mk val nd =>
    induction val using Quotient.inductionOn with
    | h l =>
      show ((List.insertionSort (· ≤ ·) l).map f).sum = _
      rw [((List.perm_insertionSort (· ≤ ·) l).map f).sum_eq]
      simp [Finset.sum]

/-! # Claim theorems -/

/-- Claim C1, counterexample.  For the 3-byte input file consisting exactly
of the bytes `"EOF"`, a lossless run (data segment 0, then the EOF segment
at sequence 1) makes the receiver classify the data segment itself as
end-of-stream: it terminates immediately and writes an output different
from the input (empty instead of `"EOF"`). -/
theorem c1_counterexample :
    chunks eofMarker = [eofMarker] ∧
    (runRaw initR [[0, 0, 0, 0] ++ List.replicate 16 0 ++ eofMarker,
                   [0, 0, 0, 1] ++ List.replicate 16 0 ++ eofMarker]).done = true ∧
    (runRaw initR [[0, 0, 0, 0] ++ List.replicate 16 0 ++ eofMarker,
                   [0, 0, 0, 1] ++ List.replicate 16 0 ++ eofMarker]).st.out ≠ eofMarker := by
  refine ⟨by decide, by decide, by decide⟩

/-- Claim C1, amended: for any input file **none of whose segments is the
three bytes `"EOF"`** and with fewer than `2^32 − 1` segments, and for any
arrival sequence of valid datagrams (data segments carrying their own
chunk, the EOF segment, duplicates, reorderings, and unparseable datagrams
in any order), if the receiver terminates with all `N` segments delivered
then its output equals the input byte-for-byte. -/
theorem c1_amended (l : List ℕ) (arr : List (List ℕ))
    (hchunk : eofMarker ∉ chunks l)
    (harr : ∀ raw ∈ arr, validArrival (chunks l) raw = true)
    (hdone : (runRaw initR arr).done = true)
    (hall : (runRaw initR arr).st.nextExp = (chunks l).length) :
    (runRaw initR arr).st.out = l := by
  have hg := runRaw_good (chunks l) arr initR ⟨rfl, fun _ _ h => by cases h⟩ harr
  obtain ⟨hout, _⟩ := hg
  rw [hout, hall, List.take_length, chunks_flatten]

/-- Witness for C1's amended theorem: the 3-byte file `[1, 2, 3]`
transferred losslessly (segment 0 then EOF at sequence 1). -/
theorem c1_amended_witness :
    eofMarker ∉ chunks [1, 2, 3] ∧
    (∀ raw ∈ [[0, 0, 0, 0] ++ List.replicate 16 0 ++ [1, 2, 3],
              [0, 0, 0, 1] ++ List.replicate 16 0 ++ eofMarker],
      validArrival (chunks [1, 2, 3]) raw = true) ∧
    (runRaw initR [[0, 0, 0, 0] ++ List.replicate 16 0 ++ [1, 2, 3],
                   [0, 0, 0, 1] ++ List.replicate 16 0 ++ eofMarker]).done = true ∧
    (runRaw initR [[0, 0, 0, 0] ++ List.replicate 16 0 ++ [1, 2, 3],
                   [0, 0, 0, 1] ++ List.replicate 16 0 ++ eofMarker]).st.nextExp =
      (chunks [1, 2, 3]).length ∧
    (runRaw initR [[0, 0, 0, 0] ++ List.replicate 16 0 ++ [1, 2, 3],
                   [0, 0, 0, 1] ++ List.replicate 16 0 ++ eofMarker]).st.out = [1, 2, 3] :=
  ⟨by decide, by decide, by decide, by decide,
    c1_amended [1, 2, 3] _ (by decide) (by decide) (by decide) (by decide)⟩

/-- Claim C3, counterexample.  After segments 0 and 1 are delivered
(`next_expected_seq = 2`), a duplicate of segment 1 arrives: it is re-added
to the received-set and the resulting ACK carries the SACK range `(1, 1)`
with `1 < next_expected_seq = 2`, covering a sequence number that was
already delivered — violating the claimed `s ≥ next_expected_seq`
validity. -/
theorem c3_counterexample :
    (runRaw initR [[0, 0, 0, 0] ++ List.replicate 16 0 ++ [1],
                   [0, 0, 0, 1] ++ List.replicate 16 0 ++ [2],
                   [0, 0, 0, 1] ++ List.replicate 16 0 ++ [2]]).acks =
      [(1, []), (2, []), (2, [(1, 1)])] ∧
    ¬(2 ≤ (1 : ℕ)) := by
  refine ⟨by decide, by decide⟩

/-- Claim C3, amended: every SACK range `[s, e]` produced by
`find_sack_blocks` (hence every range in any emitted ACK, including idle
retransmissions) satisfies `s ≤ e`, and every `x ∈ [s, e]` is in the
receiver's received-set at that moment.  The bound `s ≥ next_expected_seq`
and "not yet delivered" can fail, because a duplicate of an
already-delivered segment is re-inserted into the received-set (see the
counterexample). -/
theorem c3_amended (r : Finset ℕ) (recent? : Option ℕ) (p : ℕ × ℕ)
    (hp : p ∈ findSackBlocks r recent?) :
    p.1 ≤ p.2 ∧ ∀ x, p.1 ≤ x → x ≤ p.2 → x ∈ r := by
  match recent? with
  | none => cases hp
  | some recent =>
    rw [findSackBlocks] at hp
    by_cases hm : recent ∈ r
    · rw [if_pos hm] at hp
      have hp' := List.mem_of_mem_take hp
      rcases List.mem_cons.mp hp' with hc | hc
      · subst hc
        refine ⟨(expandDown_le r recent).trans (expandUp_ge r r.card recent), ?_⟩
        intro x h1 h2
        by_cases hx : x ≤ recent
        · exact expandDown_mem r recent hm x h1 hx
        · exact expandUp_mem r r.card recent hm x (by omega) h2
      · revert hc
        cases hfind : (scanRuns (sortedOf r)).find?
            (fun br => !(decide (br.1 ≤ recent) && decide (recent ≤ br.2))) with
        | none => intro hc; cases hc
        | some b =>
          intro hc
          rw [List.mem_singleton] at hc
          subst hc
          exact scanRuns_mem r (sortedOf r)
            (fun y hy => (mem_sortedOf r y).mp hy) p
            (List.mem_of_find?_eq_some hfind)
    · rw [if_neg hm] at hp
      cases hp

/-- Witness for C3's amended theorem: the received-set `{1, 2}` with most
recent arrival 1 yields the single block `(1, 2)`, which is well-formed and
covered by the received-set. -/
theorem c3_amended_witness :
    (1, 2) ∈ findSackBlocks {1, 2} (some 1) ∧
    ((1, 2).1 ≤ (1, 2).2 ∧ ∀ x, (1, 2).1 ≤ x → x ≤ (1, 2).2 → x ∈ ({1, 2} : Finset ℕ)) :=
  ⟨by decide, c3_amended {1, 2} (some 1) (1, 2) (by decide)⟩

/-- Claim C10, counterexample.  The claim says that for **every** sequence
number `s`, an arriving datagram with payload `"EOF"` elicits the final ACK
`s + 1` five times.  At `s = 2^32 − 1` the ACK value `2^32` does not fit in
`struct.pack("!I", ·)`: `create_ack` raises `struct.error`, the receive
loop aborts with no ACK sent, no normal termination, and no output file. -/
theorem c10_counterexample :
    (runRaw initR [[255, 255, 255, 255] ++ List.replicate 16 0 ++ eofMarker]).crashed = true ∧
    (runRaw initR [[255, 255, 255, 255] ++ List.replicate 16 0 ++ eofMarker]).acks = [] ∧
    (runRaw initR [[255, 255, 255, 255] ++ List.replicate 16 0 ++ eofMarker]).done = false := by
  refine ⟨by decide, by decide, by decide⟩

/-- Claim C10, amended: for every receiver state and every arriving
datagram whose payload is exactly `"EOF"` **with sequence number
`s < 2^32 − 1`**, the receiver — judging by the payload alone — sends the
final ACK with cumulative value `s + 1` and no SACK exactly five times,
terminates the receive loop (ignoring any further datagrams), and leaves
its state (in particular the output buffer) unchanged. -/
theorem c10_amended (st : RState) (raw : List ℕ) (rest : List (List ℕ)) (seq : ℕ)
    (h : parsePacket raw = some (seq, eofMarker)) (hseq : seq + 1 < U32) :
    runRaw st (raw :: rest) = ⟨st, List.replicate 5 (seq + 1, []), true, false⟩ := by
  obtain ⟨w, hw⟩ := Option.isSome_iff_exists.mp (createAck_nil_isSome (seq + 1) hseq)
  have hc : clientStep st seq eofMarker = (st, .finalAck (seq + 1)) := by
    rw [clientStep, if_pos rfl, hw]
  simp only [runRaw, h, hc]

/-- Witness for C10's amended theorem: the EOF payload at sequence 7
against the initial receiver state. -/
theorem c10_amended_witness :
    parsePacket ([0, 0, 0, 7] ++ List.replicate 16 0 ++ eofMarker) = some (7, eofMarker) ∧
    7 + 1 < U32 ∧
    runRaw initR [[0, 0, 0, 7] ++ List.replicate 16 0 ++ eofMarker] =
      ⟨initR, List.replicate 5 (7 + 1, []), true, false⟩ :=
  ⟨by decide, by decide,
    c10_amended initR _ [] 7 (by decide) (by decide)⟩

/-- Claim C4, counterexample.  The claim states `cwnd ∈ [10·DATA_SIZE,
10000·DATA_SIZE]` at every point of the session.  It fails already in the
initial state (`cwnd = DATA_SIZE`, one MSS, below the floor); the
duplicate-ACK inflation exceeds the cap when `cwnd` is at the cap; and the
non-severe reaction halves `cwnd` below the floor when `cwnd` is at the
floor. -/
theorem c4_counterexample :
    initCubic.cwnd < 10 * (DATA_SIZE : ℚ) ∧
    10000 * (DATA_SIZE : ℚ) <
      (dupAckInflate ⟨10000 * (DATA_SIZE : ℚ), 0, none, 0, true⟩).cwnd ∧
    (onCongestionEvent false ⟨10 * (DATA_SIZE : ℚ), 0, none, 0, false⟩).cwnd <
      10 * (DATA_SIZE : ℚ) := by
  refine ⟨?_, ?_, ?_⟩ <;>
    norm_num [initCubic, dupAckInflate, onCongestionEvent, CWND_DEC, DATA_SIZE,
      MAX_PAYLOAD_SIZE, HEADER_SIZE]

/-- Claim C4, amended: the CUBIC growth update (outside recovery, with an
open epoch) clamps `cwnd` into `[10·DATA_SIZE, 10000·DATA_SIZE]`, and a
severe (timeout) congestion event sets `cwnd = 10·DATA_SIZE` and
`W_max = cwnd_before / 2`.  The initial state, the non-severe halving and
the duplicate-ACK inflation are not subject to the bounds (see the
counterexample). -/
theorem c4_amended :
    (∀ (κ now t0 : ℚ) (st : CubicState), st.inRecovery = false →
      st.epochStart = some t0 →
      10 * (DATA_SIZE : ℚ) ≤ (cubicUpdate κ now st).cwnd ∧
      (cubicUpdate κ now st).cwnd ≤ 10000 * (DATA_SIZE : ℚ)) ∧
    (∀ st : CubicState, (onCongestionEvent true st).cwnd = 10 * (DATA_SIZE : ℚ) ∧
      (onCongestionEvent true st).Wmax = st.cwnd / 2) := by
  constructor
  · intro κ now t0 st h1 h2
    rw [cubicUpdate, if_neg (by rw [h1]; exact Bool.false_ne_true), h2]
    refine ⟨le_max_left _ _, max_le ?_ ?_⟩
    · norm_num [DATA_SIZE, MAX_PAYLOAD_SIZE, HEADER_SIZE]
    · exact (min_le_right _ _).trans (by norm_num [MAX_CWND])
  · intro st
    simp [onCongestionEvent]

/-- Witness for C4's amended theorem at a concrete state with an open
epoch, and at the initial state for the severe reaction. -/
theorem c4_amended_witness :
    (10 * (DATA_SIZE : ℚ) ≤ (cubicUpdate 0 1 ⟨11800, 0, some 0, 0, false⟩).cwnd ∧
      (cubicUpdate 0 1 ⟨11800, 0, some 0, 0, false⟩).cwnd ≤ 10000 * (DATA_SIZE : ℚ)) ∧
    ((onCongestionEvent true initCubic).cwnd = 10 * (DATA_SIZE : ℚ) ∧
      (onCongestionEvent true initCubic).Wmax = initCubic.cwnd / 2) :=
  ⟨c4_amended.1 0 1 0 ⟨11800, 0, some 0, 0, false⟩ rfl rfl, c4_amended.2 initCubic⟩

/-- Claim C7, counterexample.  The code detects "first sample" by
`estimated_rtt == TIMEOUT_INITIAL` (1.0).  Feeding the samples `[1, 2]`,
the second sample is again treated as a first sample (SRTT was left at the
sentinel 1.0), yielding `SRTT = 2`, whereas the claimed recurrence demands
`SRTT = (1-0.125)·1 + 0.125·2 = 9/8`. -/
theorem c7_counterexample :
    codeRun [1, 2] = ⟨2, 1, 5⟩ ∧
    specRun [1, 2] = some ⟨9/8, 5/8, 29/8⟩ ∧
    (⟨2, 1, 5⟩ : RttState) ≠ ⟨9/8, 5/8, 29/8⟩ := by
  refine ⟨?_, ?_, ?_⟩
  · norm_num [codeRun, updateRto, initRtt, TIMEOUT_INITIAL]
  · norm_num [specRun, specUpdate, abs]
  · simp only [ne_eq, RttState.mk.injEq, not_and]
    intro h
    norm_num at h

/-- Claim C7, amended: the recurrences hold as stated provided SRTT never
revisits the sentinel initial value 1.0 — in particular whenever every
sample exceeds 1.0 (1 second).  The code's estimator then coincides with
the specified first-sample/subsequent-sample recurrence, including the RTO
clamp to `[0.05, 5.0]` after each update. -/
theorem c7_amended (l : List ℚ) (h1 : l ≠ []) (h2 : ∀ s ∈ l, 1 < s) :
    specRun l = some (codeRun l) := by
  match l with
  | s :: rest =>
    have hs : 1 < s := h2 s (by simp)
    have hfirst : specUpdate none s = updateRto initRtt s := by
      simp [specUpdate, updateRto, initRtt]
    have := specRun_agrees rest (updateRto initRtt s)
      (by rw [updateRto, if_pos (show initRtt.srtt = TIMEOUT_INITIAL from rfl)]; exact hs)
      (fun x hx => h2 x (by simp [hx]))
    simpa [specRun, codeRun, List.foldl, hfirst] using this.1

/-- Witness for C7's amended theorem on the concrete sample list `[2, 3]`. -/
theorem c7_amended_witness :
    ([2, 3] : List ℚ) ≠ [] ∧ specRun [2, 3] = some (codeRun [2, 3]) :=
  ⟨by simp, c7_amended [2, 3] (by simp) (by norm_num)⟩

/-- Claim C8, counterexample.  The claim states that both sender variants
transmit the EOF segment up to 10 times and warn on exhaustion.  Variant B
(`p2_server.py`) uses `for i in range(5)`: with ten consecutive timeouts
available it stops after 5 transmissions and never warns, while variant A
performs 10 transmissions and warns. -/
theorem c8_counterexample :
    p2EofLoop 7 0 0 (List.replicate 10 .timeout) = .finished 5 ∧
    p1EofLoop 7 0 0 (List.replicate 10 .timeout) = .warned 10 := by
  constructor <;> decide

/-- Claim C8, amended: variant A transmits the EOF segment up to 10 times,
warns after exhausting all attempts, and stops as soon as a cumulative ACK
strictly greater than the EOF sequence arrives; variant B performs at most
5 attempts and terminates without a warning. -/
theorem c8_amended :
    (∀ N k, 10 ≤ k → p1EofLoop N 0 0 (List.replicate k .timeout) = .warned 10) ∧
    (∀ N r s c rest, r < 10 → N < c →
      p1EofLoop N r s (.ackRecv c :: rest) = .acked (s + 1)) ∧
    (∀ N k, 5 ≤ k → p2EofLoop N 0 0 (List.replicate k .timeout) = .finished 5) ∧
    (∀ N i s c rest, i < 5 → N < c →
      p2EofLoop N i s (.ackRecv c :: rest) = .acked (s + 1)) := by
  refine ⟨?_, ?_, ?_, ?_⟩
  · intro N k hk
    rw [p1EofLoop_replicate]
    split_ifs <;> first | omega | rfl
  · intro N r s c rest hr hc
    rw [p1EofLoop.eq_def]
    simp [Nat.not_le.mpr hr, hc]
  · intro N k hk
    rw [p2EofLoop_replicate]
    split_ifs <;> first | omega | rfl
  · intro N i s c rest hi hc
    rw [p2EofLoop.eq_def]
    simp [Nat.not_le.mpr hi, hc]

/-- Witness for C8's amended theorem at concrete inputs. -/
theorem c8_amended_witness :
    ((10 : ℕ) ≤ 12 ∧ p1EofLoop 3 0 0 (List.replicate 12 .timeout) = .warned 10) ∧
    ((0 : ℕ) < 10 ∧ (3 : ℕ) < 4 ∧ p1EofLoop 3 0 0 (.ackRecv 4 :: []) = .acked 1) ∧
    ((5 : ℕ) ≤ 9 ∧ p2EofLoop 3 0 0 (List.replicate 9 .timeout) = .finished 5) ∧
    ((0 : ℕ) < 5 ∧ (3 : ℕ) < 4 ∧ p2EofLoop 3 0 0 (.ackRecv 4 :: []) = .acked 1) :=
  ⟨⟨by norm_num, c8_amended.1 3 12 (by norm_num)⟩,
   ⟨by norm_num, by norm_num, c8_amended.2.1 3 0 0 4 [] (by norm_num) (by norm_num)⟩,
   ⟨by norm_num, c8_amended.2.2.1 3 9 (by norm_num)⟩,
   ⟨by norm_num, by norm_num, c8_amended.2.2.2 3 0 0 4 [] (by norm_num) (by norm_num)⟩⟩

/-- `record_send` preserves the tracker invariant when the sent sequence
addresses a real segment. -/
lemma recordSend_inv (pb : List ℕ) (t : Tracker) (seq : ℕ) (now : Time)
    (hInv : TrkInv pb t) (hlen : seq < pb.length) :
    TrkInv pb (t.recordSend pb seq now) := by
  obtain ⟨hr, hsub, hbif⟩ := hInv
  rw [Tracker.recordSend]
  by_cases hmem : seq ∈ t.sentOnce
  · rw [if_pos hmem]
    exact ⟨hr, hsub, hbif⟩
  · rw [if_neg hmem]
    have hnotun : seq ∉ t.unacked := fun hin => hmem (hsub hin)
    refine ⟨?_, ?_, ?_⟩
    · intro x hx
      rcases Finset.mem_insert.mp hx with hc | hc
      · subst hc; exact Finset.mem_range.mpr hlen
      · exact hr hc
    · intro x hx
      rcases Finset.mem_insert.mp hx with hc | hc
      · subst hc; exact Finset.mem_insert_self _ _
      · exact Finset.mem_insert_of_mem (hsub hc)
    · show t.bytesInFlight + (pb.getD seq 0 : ℤ) = ∑ s ∈ insert seq t.unacked, (pb.getD s 0 : ℤ)
      rw [Finset.sum_insert hnotun, hbif]
      ring

/-- Claim C6: the in-flight invariant.  The initial tracker satisfies
`bytes_in_flight = Σ payload_len(unacked)`; every send-loop event of either
sender (admission, ACK processing with or without SACK clipping, fast
retransmit, timer or recovery-stall sweep) preserves it; and no
retransmission event changes `bytes_in_flight` at all. -/
theorem c6_inflight :
    (∀ pb : List ℕ, TrkInv pb initTracker) ∧
    (∀ (pb : List ℕ) (ev : SendEv) (st st' : SendState),
      TrkInv pb st.tr → sendStep pb ev st = .ok st' → TrkInv pb st'.tr) ∧
    (∀ (pb : List ℕ) (ev : SendEv) (st st' : SendState), isRetxEv ev →
      sendStep pb ev st = .ok st' → st'.tr.bytesInFlight = st.tr.bytesInFlight) := by
  refine ⟨?_, ?_, ?_⟩
  · intro pb
    exact ⟨Finset.empty_subset _, Finset.empty_subset _, by simp [initTracker]⟩
  · intro pb ev st st' hInv h
    cases ev with
    | sendNew w now =>
      simp only [sendStep] at h
      cases hg : pb.get? st.nextSeq with
      | none =>
        simp only [hg, Except.ok.injEq] at h
        subst h; exact hInv
      | some b =>
        simp only [hg] at h
        by_cases hle : st.tr.bytesInFlight + (b : ℤ) ≤ w
        · rw [if_pos hle] at h
          simp only [Except.ok.injEq] at h
          subst h
          have hlen : st.nextSeq < pb.length := by
            rw [List.get?_eq_some] at hg
            exact hg.1
          exact recordSend_inv pb st.tr st.nextSeq now hInv hlen
        · rw [if_neg hle] at h
          simp only [Except.ok.injEq] at h
          subst h; exact hInv
    | ackTurn clip cum blocks now =>
      simp only [sendStep] at h
      cases hat : ackTurnTracker clip pb cum blocks now st.tr with
      | error e => simp only [hat, Except.map] at h; cases h
      | ok p =>
        obtain ⟨t2, smp⟩ := p
        simp only [hat, Except.map, Except.ok.injEq] at h
        subst h
        obtain ⟨hr, hsub, hbif⟩ := hInv
        cases cum with
        | none =>
          rw [ackTurnTracker] at hat
          by_cases he : st.tr.unacked = ∅
          · rw [if_pos he] at hat
            simp only [Except.ok.injEq, Prod.mk.injEq] at hat
            obtain ⟨h1, _⟩ := hat
            subst h1
            exact ⟨hr, hsub, hbif⟩
          · rw [if_neg he] at hat
            cases hat
        | some c =>
          rw [ackTurnTracker] at hat
          have hsubN : newlyAcked clip pb c blocks st.tr ⊆ st.tr.unacked := by
            intro x hx
            rcases Finset.mem_union.mp hx with hc2 | hc2 <;>
              exact (Finset.mem_filter.mp hc2).1
          have hun := ackLoop_unacked pb now _ _ _ _ hat
          have hbif2 := ackLoop_bif pb now _ _ _ _ hat
          have hso := ackLoop_sentOnce pb now _ _ _ _ hat
          have huneq : t2.unacked = st.tr.unacked \ newlyAcked clip pb c blocks st.tr := by
            ext x
            rw [hun x, Finset.mem_sdiff, mem_sortedOf]
          refine ⟨?_, ?_, ?_⟩
          · intro x hx
            rw [huneq] at hx
            exact hr (Finset.mem_sdiff.mp hx).1
          · intro x hx
            rw [huneq] at hx
            rw [hso]
            exact hsub (Finset.mem_sdiff.mp hx).1
          · rw [hbif2, huneq, hbif, Finset.sum_sdiff_eq_sub hsubN]
            congr 1
            rw [sum_map_sortedOf]
    | fastRetx now =>
      simp only [sendStep] at h
      cases hm : oldestUnacked st.tr.unacked with
      | none =>
        simp only [hm, Except.ok.injEq] at h
        subst h; exact hInv
      | some m =>
        simp only [hm] at h
        by_cases hlt : m < pb.length
        · rw [if_pos hlt] at h
          simp only [Except.ok.injEq] at h
          subst h; exact hInv
        · rw [if_neg hlt] at h
          cases h
    | timerRetx rto now =>
      simp only [sendStep] at h
      by_cases hall : ∀ s ∈ st.tr.unacked.filter
          (fun s => timedOut (st.tr.sendTimes s) rto now), s < pb.length
      · rw [if_pos hall] at h
        simp only [Except.ok.injEq] at h
        subst h; exact hInv
      · rw [if_neg hall] at h
        cases h
  · intro pb ev st st' hret h
    cases ev with
    | sendNew w now => exact False.elim hret
    | ackTurn clip cum blocks now => exact False.elim hret
    | fastRetx now =>
      simp only [sendStep] at h
      cases hm : oldestUnacked st.tr.unacked with
      | none =>
        simp only [hm, Except.ok.injEq] at h
        subst h; rfl
      | some m =>
        simp only [hm] at h
        by_cases hlt : m < pb.length
        · rw [if_pos hlt] at h
          simp only [Except.ok.injEq] at h
          subst h; rfl
        · rw [if_neg hlt] at h
          cases h
    | timerRetx rto now =>
      simp only [sendStep] at h
      by_cases hall : ∀ s ∈ st.tr.unacked.filter
          (fun s => timedOut (st.tr.sendTimes s) rto now), s < pb.length
      · rw [if_pos hall] at h
        simp only [Except.ok.injEq] at h
        subst h; rfl
      · rw [if_neg hall] at h
        cases h

/-- Witness for C6: the initial state of a two-segment session, one
admission step under window 100 at time 1. -/
theorem c6_inflight_witness :
    TrkInv [4, 6] (⟨initTracker, 0⟩ : SendState).tr ∧
    sendStep [4, 6] (.sendNew 100 1) ⟨initTracker, 0⟩ =
      .ok ⟨initTracker.recordSend [4, 6] 0 1, 1⟩ ∧
    TrkInv [4, 6] (initTracker.recordSend [4, 6] 0 1) :=
  ⟨by decide, rfl,
    c6_inflight.2.1 [4, 6] (.sendNew 100 1) ⟨initTracker, 0⟩
      ⟨initTracker.recordSend [4, 6] 0 1, 1⟩ (by decide) rfl⟩

/-- Claim C9: ACK processing is idempotent on the tracker.  If one
application of the ACK-processing step (cumulative value plus SACK blocks,
either variant's clipping) succeeds and produces tracker `t'`, then a
second application of the same ACK to `t'` (at any later clock) succeeds,
changes nothing, and draws no further samples. -/
theorem c9_idempotent (clip : Bool) (pb : List ℕ) (cum : Option ℕ) (blocks : List (ℕ × ℕ))
    (now now' : Time) (t t' : Tracker) (smp : List Time)
    (h : ackTurnTracker clip pb cum blocks now t = .ok (t', smp)) :
    ackTurnTracker clip pb cum blocks now' t' = .ok (t', []) := by
  cases cum with
  | none =>
    rw [ackTurnTracker] at h ⊢
    by_cases he : t.unacked = ∅
    · rw [if_pos he] at h
      simp only [Except.ok.injEq, Prod.mk.injEq] at h
      obtain ⟨h1, _⟩ := h
      subst h1
      rw [if_pos he]
    · rw [if_neg he] at h
      cases h
  | some c =>
    rw [ackTurnTracker] at h ⊢
    have hemp : newlyAcked clip pb c blocks t' = ∅ := by
      rw [Finset.eq_empty_iff_forall_not_mem]
      intro x hx
      have hx' : x ∈ t'.unacked := by
        rcases Finset.mem_union.mp hx with hc | hc <;> exact (Finset.mem_filter.mp hc).1
      obtain ⟨hxt, hxl⟩ := (ackLoop_unacked pb now _ t t' smp h x).mp hx'
      apply hxl
      rw [mem_sortedOf]
      rcases Finset.mem_union.mp hx with hc | hc
      · exact Finset.mem_union_left _
          (Finset.mem_filter.mpr ⟨hxt, (Finset.mem_filter.mp hc).2⟩)
      · exact Finset.mem_union_right _
          (Finset.mem_filter.mpr ⟨hxt, (Finset.mem_filter.mp hc).2⟩)
    rw [hemp]
    rfl

/-- Witness for C9: the ACK `cum_ack = 1` applied twice to a one-segment
tracker; the second application returns the once-applied state unchanged
with no samples. -/
theorem c9_idempotent_witness :
    ackTurnTracker true [3] (some 1) [] 0 c9t =
      .ok (⟨{0}, ({0} : Finset ℕ).erase 0, c9t.sendTimes, (3 : ℤ) - 3⟩, []) ∧
    ackTurnTracker true [3] (some 1) [] 1
        ⟨{0}, ({0} : Finset ℕ).erase 0, c9t.sendTimes, (3 : ℤ) - 3⟩ =
      .ok (⟨{0}, ({0} : Finset ℕ).erase 0, c9t.sendTimes, (3 : ℤ) - 3⟩, []) :=
  ⟨rfl, c9_idempotent true [3] (some 1) [] 0 1 c9t _ [] rfl⟩

/-- Claim C2, counterexample.  Segments 0 and 1 are sent at time 1; four
ACKs with `cum_ack = 0` arrive (the third duplicate fires fast retransmit,
refreshing segment 0's send time to 5); then `cum_ack = 2` is processed at
time 7.  The release loop finds segment 0's refreshed record still present
and feeds the estimator the sample `7 − 5` for the retransmitted segment —
the resulting estimator state is the two-sample fold, not the one-sample
fold `updateRto initRtt (7 − 1)` that the claim (no sample from a
retransmitted segment) would produce. -/
theorem c2_counterexample :
    c2mid.map (fun st => st.tr.sendTimes 0) = .ok (some 5) ∧
    c2st0.tr.sendTimes 0 = some 1 ∧
    c2run.map (fun st => st.rtt) =
      .ok (updateRto (updateRto initRtt (7 - 5)) (7 - 1)) ∧
    updateRto (updateRto initRtt (7 - 5)) (7 - 1) ≠ updateRto initRtt (7 - 1) := by
  refine ⟨rfl, rfl, rfl, ?_⟩
  intro hcon
  have := congrArg RttState.srtt hcon
  norm_num [updateRto, initRtt, TIMEOUT_INITIAL] at this

/-- Claim C2, amended: the send-time record is refreshed (not discarded) on
retransmission, so every segment newly acknowledged by an ACK whose record
is present contributes the RTT sample `now − send_time[seq]` to the
estimator, where `send_time[seq]` is the most recent (possibly
retransmission) send time. -/
theorem c2_amended (clip : Bool) (pb : List ℕ) (cum : Option ℕ) (blocks : List (ℕ × ℕ))
    (now : Time) (t t' : Tracker) (smp : List Time) (seq : ℕ) (ts : Time)
    (h : ackTurnTracker clip pb cum blocks now t = .ok (t', smp))
    (h1 : seq ∈ t.unacked) (h2 : seq ∉ t'.unacked)
    (hts : t.sendTimes seq = some ts) :
    (now - ts) ∈ smp := by
  cases cum with
  | none =>
    rw [ackTurnTracker] at h
    by_cases he : t.unacked = ∅
    · rw [he] at h1
      exact absurd h1 (Finset.not_mem_empty seq)
    · rw [if_neg he] at h
      cases h
  | some c =>
    rw [ackTurnTracker] at h
    have hmem : seq ∈ sortedOf (newlyAcked clip pb c blocks t) := by
      by_contra hcon
      exact h2 ((ackLoop_unacked pb now _ t t' smp h seq).mpr ⟨h1, hcon⟩)
    exact ackLoop_sample pb now _ t t' smp seq ts h hmem hts

/-- Witness for C2's amended theorem: a segment whose (refreshed) record is
3 is acknowledged at time 9 and yields the sample `9 − 3`. -/
theorem c2_amended_witness :
    0 ∈ c2wt.unacked ∧ c2wt.sendTimes 0 = some 3 ∧
    ((9 : ℚ) - 3) ∈ (match ackTurnTracker false [4] (some 1) [] 9 c2wt with
      | .ok p => p.2
      | .error _ => ([] : List Time)) := by
  have h : ackTurnTracker false [4] (some 1) [] 9 c2wt =
      .ok (⟨{0}, ({0} : Finset ℕ).erase 0,
        (fun n => if n = 0 then none else c2wt.sendTimes n), (4 : ℤ) - 4⟩, [9 - 3]) := rfl
  refine ⟨by decide, rfl, ?_⟩
  rw [h]
  exact c2_amended false [4] (some 1) [] 9 c2wt _ _ 0 3 h (by decide) (by decide) rfl

/-- Claim C5: the sender does **not** silently discard a short datagram.
`parse_ack` returns the sentinel `(None, [])` for a datagram shorter than
20 bytes, but the receive turn never checks it: the duplicate-ACK stage
overwrites `last_cum_ack` with `None` and resets `dup_ack_count`, and the
cumulative stage then evaluates `seq < None`, raising `TypeError`
(modelled as `.error`) because `unacked` is non-empty.  With an empty
`unacked` set no exception is raised, but `last_cum_ack` is still
clobbered.  (The receiver side does discard short datagrams — see
`runRaw`'s `parsePacket` skip.) -/
theorem c5_short_datagram_crash :
    parseAckRaw [1, 2, 3, 4, 5] = (none, []) ∧
    p1RecvTurn [3] [1, 2, 3, 4, 5] 9 9 c5st = .error () ∧
    (p1RecvTurn [3] [1, 2, 3, 4, 5] 9 9 c5stEmpty).map
      (fun st => (st.lastCumAck, st.dupAckCount)) = .ok (none, 0) ∧
    c5stEmpty.lastCumAck = some (-1) :=
  ⟨rfl, rfl, rfl, rfl⟩

end RUDP
